import Mathlib

/-!
Verification of the voice-monitoring client (PCM codec, live session
manager, and application state projector).

The development shallowly embeds the TypeScript sources:
* `src/services/audioUtils.ts` — PCM codec (`createPcmBlob`,
  `arrayBufferToBase64`, `decodeAudioData`);
* the live session manager (the revision carrying the `session` field,
  whose per-frame closure passes the audio context's actual sample rate
  to `createPcmBlob` and sends tool acknowledgements synchronously);
* `src/App.tsx` — the transcript / intent state projector.

Audio samples are modelled as rationals.  For the codec this is exact:
inputs are 32-bit floats (24-bit significands) and both products
`val * 0x8000` and `val * 0x7FFF` fit in well under 53 bits, so the
double-precision multiplications performed by the JavaScript engine are
exact, as are the 16-bit quantisation and the decode division by 32768.
-/

namespace VoiceMonitor

/-! ## Base64 (the `btoa` / `atob` layer used by the codec)

Bytes are natural numbers below 256; the base64 text is a list of
characters. -/

/-- Base64 alphabet, in order, as used by `btoa` / `atob`. -/
def b64Chars : List Char :=
  ['A', 'B', 'C', 'D', 'E', 'F', 'G', 'H', 'I', 'J', 'K', 'L', 'M',
   'N', 'O', 'P', 'Q', 'R', 'S', 'T', 'U', 'V', 'W', 'X', 'Y', 'Z',
   'a', 'b', 'c', 'd', 'e', 'f', 'g', 'h', 'i', 'j', 'k', 'l', 'm',
   'n', 'o', 'p', 'q', 'r', 's', 't', 'u', 'v', 'w', 'x', 'y', 'z',
   '0', '1', '2', '3', '4', '5', '6', '7', '8', '9', '+', '/']

/-- Character for a 6-bit group. -/
def b64Char (n : Nat) : Char := b64Chars.getD n '?'

/-- Position of a character in a character list (0 when absent, like the
lenient lookup table of `atob`). -/
def b64IndexAux : List Char → Char → Nat
  | [], _ => 0
  | a :: rest, c => if a = c then 0 else b64IndexAux rest c + 1

/-- Value of a base64 character. -/
def b64Index (c : Char) : Nat := b64IndexAux b64Chars c

/-- Base64 encoding of a byte list, exactly the composition
`btoa(binary)` applied to the byte string built by
`arrayBufferToBase64` in `src/services/audioUtils.ts` (three bytes per
four output characters, `=`-padded). -/
def arrayBufferToBase64 : List Nat → List Char
  | [] => []
  | [a] => [b64Char (a / 4), b64Char (a % 4 * 16), '=', '=']
  | [a, b] => [b64Char (a / 4), b64Char (a % 4 * 16 + b / 16),
               b64Char (b % 16 * 4), '=']
  | a :: b :: c :: rest =>
      b64Char (a / 4) :: b64Char (a % 4 * 16 + b / 16) ::
      b64Char (b % 16 * 4 + c / 64) :: b64Char (c % 64) ::
      arrayBufferToBase64 rest

/-- Base64 decoding (`atob`) of a padded base64 text back to bytes. -/
def atob : List Char → List Nat
  | c0 :: c1 :: c2 :: c3 :: rest =>
      if c2 = '=' then
        [b64Index c0 * 4 + b64Index c1 / 16]
      else if c3 = '=' then
        [b64Index c0 * 4 + b64Index c1 / 16,
         b64Index c1 % 16 * 16 + b64Index c2 / 4]
      else
        (b64Index c0 * 4 + b64Index c1 / 16) ::
        (b64Index c1 % 16 * 16 + b64Index c2 / 4) ::
        (b64Index c2 % 4 * 64 + b64Index c3) :: atob rest
  | _ => []

theorem b64Index_b64Char : ∀ n : Nat, n < 64 → b64Index (b64Char n) = n := by
  decide

theorem b64Char_ne_pad : ∀ n : Nat, n < 64 → b64Char n ≠ '=' := by
  decide

theorem atob_arrayBufferToBase64 :
    ∀ l : List Nat, (∀ b ∈ l, b < 256) → atob (arrayBufferToBase64 l) = l
  | [], _ => rfl
  | [a], h => by
      have ha : a < 256 := h a (by simp)
      have h1 : a / 4 < 64 := by omega
      have h2 : a % 4 * 16 < 64 := by omega
      simp only [arrayBufferToBase64, atob]
      rw [if_pos trivial, b64Index_b64Char _ h1, b64Index_b64Char _ h2]
      simp only [List.cons.injEq]
      exact ⟨by omega, trivial⟩
  | [a, b], h => by
      have ha : a < 256 := h a (by simp)
      have hb : b < 256 := h b (by simp)
      have h1 : a / 4 < 64 := by omega
      have h2 : a % 4 * 16 + b / 16 < 64 := by omega
      have h3 : b % 16 * 4 < 64 := by omega
      simp only [arrayBufferToBase64, atob]
      rw [if_neg (b64Char_ne_pad _ h3), if_pos trivial,
        b64Index_b64Char _ h1, b64Index_b64Char _ h2, b64Index_b64Char _ h3]
      simp only [List.cons.injEq]
      exact ⟨by omega, by omega, trivial⟩
  | a :: b :: c :: rest, h => by
      have ha : a < 256 := h a (by simp)
      have hb : b < 256 := h b (by simp)
      have hc : c < 256 := h c (by simp)
      have h1 : a / 4 < 64 := by omega
      have h2 : a % 4 * 16 + b / 16 < 64 := by omega
      have h3 : b % 16 * 4 + c / 64 < 64 := by omega
      have h4 : c % 64 < 64 := by omega
      have ih := atob_arrayBufferToBase64 rest (fun x hx => h x (by simp [hx]))
      simp only [arrayBufferToBase64, atob]
      rw [if_neg (b64Char_ne_pad _ h3), if_neg (b64Char_ne_pad _ h4),
        b64Index_b64Char _ h1, b64Index_b64Char _ h2,
        b64Index_b64Char _ h3, b64Index_b64Char _ h4, ih]
      simp only [List.cons.injEq]
      exact ⟨by omega, by omega, by omega, trivial⟩

/-! ## PCM codec — `src/services/audioUtils.ts` -/

/-- Clamp of one sample, the two sequential guards
`if (val > 1) val = 1; if (val < -1) val = -1;` of `createPcmBlob`. -/
def clampSample (val : ℚ) : ℚ :=
  if val > 1 then 1 else if val < -1 then -1 else val

/-- Truncation toward zero, the integer conversion JavaScript applies to
the scaled sample when it is stored into an `Int16Array` slot. -/
def jsTrunc (v : ℚ) : Int := if v < 0 then ⌈v⌉ else ⌊v⌋

/-- Wrap of a truncated value into the signed 16-bit range, the `ToInt16`
step of the `Int16Array` element store. -/
def toInt16 (t : Int) : Int :=
  if 32768 ≤ t % 65536 then t % 65536 - 65536 else t % 65536

/-- One loop iteration of `createPcmBlob`: clamp, scale asymmetrically
(`val < 0 ? val * 0x8000 : val * 0x7FFF`), store as a signed 16-bit
integer. -/
def encodeSample (v : ℚ) : Int :=
  toInt16 (jsTrunc (if clampSample v < 0 then clampSample v * 32768
                    else clampSample v * 32767))

/-- Little-endian byte pair of a signed 16-bit value, as laid out in the
`Int16Array.buffer` handed to `arrayBufferToBase64`. -/
def int16ToBytes (v : Int) : List Nat :=
  [(v % 65536).toNat % 256, (v % 65536).toNat / 256]

/-- Byte serialisation of a whole `Int16Array`. -/
def int16ListToBytes : List Int → List Nat
  | [] => []
  | v :: rest => int16ToBytes v ++ int16ListToBytes rest

/-- Wire packet: base64 payload plus mime-type tag, the `Blob` record
returned by `createPcmBlob`. -/
structure PcmBlob where
  data : List Char
  mimeType : String
  deriving DecidableEq

/-- Embedding of `createPcmBlob(data, sampleRate)`
(`src/services/audioUtils.ts`): clamp and quantise every sample to a
signed 16-bit integer, serialise little-endian, base64-encode, and tag
with the given sample rate. -/
def createPcmBlob (data : List ℚ) (sampleRate : Nat) : PcmBlob :=
  { data := arrayBufferToBase64 (int16ListToBytes (data.map encodeSample))
    mimeType := "audio/pcm;rate=" ++ toString sampleRate }

/-- Reinterpretation of a byte buffer as signed 16-bit little-endian
integers, the `Int16Array` view taken by `decodeAudioData`. -/
def bytesToInt16 : List Nat → List Int
  | b0 :: b1 :: rest =>
      (if (b0 : Int) + 256 * (b1 : Int) < 32768 then (b0 : Int) + 256 * (b1 : Int)
       else (b0 : Int) + 256 * (b1 : Int) - 65536) :: bytesToInt16 rest
  | _ => []

/-- Embedding of `decodeAudioData` (`src/services/audioUtils.ts`): the
channel data written into the created audio buffer — base64-decode,
reinterpret as signed 16-bit integers, divide by 32768.  The
`AudioContext` / `AudioBuffer` plumbing carries no sample values and is
elided. -/
def decodeAudioData (base64Data : List Char) : List ℚ :=
  (bytesToInt16 (atob base64Data)).map (fun v => (Int.cast v : ℚ) / 32768)

theorem int16ToBytes_lt (v : Int) : ∀ b ∈ int16ToBytes v, b < 256 := by
  intro b hb
  simp only [int16ToBytes, List.mem_cons, List.mem_singleton] at hb
  have h0 : 0 ≤ v % 65536 := Int.emod_nonneg v (by norm_num)
  have h1 : v % 65536 < 65536 := Int.emod_lt_of_pos v (by norm_num)
  rcases hb with h | h | h
  · omega
  · omega
  · simp at h

theorem int16ListToBytes_lt :
    ∀ l : List Int, ∀ b ∈ int16ListToBytes l, b < 256
  | [], _, hb => by simp [int16ListToBytes] at hb
  | v :: rest, b, hb => by
      simp only [int16ListToBytes, List.mem_append] at hb
      rcases hb with h | h
      · exact int16ToBytes_lt v b h
      · exact int16ListToBytes_lt rest b h

theorem bytesToInt16_int16ToBytes (v : Int) (rest : List Nat)
    (h1 : -32768 ≤ v) (h2 : v < 32768) :
    bytesToInt16 (int16ToBytes v ++ rest) = v :: bytesToInt16 rest := by
  simp only [int16ToBytes, List.cons_append, List.nil_append, bytesToInt16]
  have h0 : 0 ≤ v % 65536 := Int.emod_nonneg v (by norm_num)
  have h3 : v % 65536 < 65536 := Int.emod_lt_of_pos v (by norm_num)
  have h4 : v % 65536 = v ∨ v % 65536 = v + 65536 := by omega
  simp only [List.cons.injEq, and_true]
  constructor
  · rcases h4 with h | h <;>
      · rw [show ((((v % 65536).toNat % 256 : Nat) : Int)) = v % 65536 % 256 by omega,
          show ((((v % 65536).toNat / 256 : Nat) : Int)) = v % 65536 / 256 by omega]
        split <;> omega
  · rfl

theorem bytesToInt16_int16ListToBytes :
    ∀ l : List Int, (∀ v ∈ l, -32768 ≤ v ∧ v < 32768) →
      bytesToInt16 (int16ListToBytes l) = l
  | [], _ => rfl
  | v :: rest, h => by
      have hv := h v (by simp)
      have ih := bytesToInt16_int16ListToBytes rest (fun x hx => h x (by simp [hx]))
      simp only [int16ListToBytes]
      rw [bytesToInt16_int16ToBytes v _ hv.1 hv.2, ih]

theorem clampSample_mem (v : ℚ) : -1 ≤ clampSample v ∧ clampSample v ≤ 1 := by
  unfold clampSample
  split <;> [skip; split] <;> constructor <;> linarith

theorem clampSample_eq_of_mem (v : ℚ) (h1 : -1 ≤ v) (h2 : v ≤ 1) :
    clampSample v = v := by
  unfold clampSample
  split <;> [skip; split] <;> first | rfl | linarith

theorem jsTruncScaled_range (v : ℚ) :
    -32768 ≤ jsTrunc (if clampSample v < 0 then clampSample v * 32768
      else clampSample v * 32767) ∧
    jsTrunc (if clampSample v < 0 then clampSample v * 32768
      else clampSample v * 32767) ≤ 32767 := by
  obtain ⟨hc1, hc2⟩ := clampSample_mem v
  by_cases hc : clampSample v < 0
  · rw [if_pos hc]
    simp only [jsTrunc]
    rw [if_pos (by linarith : clampSample v * 32768 < 0)]
    constructor
    · have hle : ((-32768 : Int) : ℚ) ≤ clampSample v * 32768 := by
        push_cast; linarith
      calc (-32768 : Int) = ⌈((-32768 : Int) : ℚ)⌉ := (Int.ceil_intCast _).symm
        _ ≤ ⌈clampSample v * 32768⌉ := Int.ceil_le_ceil hle
    · have h0 : (⌈clampSample v * 32768⌉ : Int) ≤ ⌈(0 : ℚ)⌉ :=
        Int.ceil_le_ceil (by linarith)
      simp only [Int.ceil_zero] at h0
      omega
  · rw [if_neg hc]
    push_neg at hc
    simp only [jsTrunc]
    rw [if_neg (by push_neg; positivity : ¬clampSample v * 32767 < 0)]
    constructor
    · have h0 : (⌊(0 : ℚ)⌋ : Int) ≤ ⌊clampSample v * 32767⌋ :=
        Int.floor_le_floor (by positivity)
      simp only [Int.floor_zero] at h0
      omega
    · have hle : clampSample v * 32767 ≤ ((32767 : Int) : ℚ) := by
        push_cast; linarith
      have := Int.floor_le_floor hle
      simpa [Int.floor_intCast] using this

theorem encodeSample_range (v : ℚ) :
    -32768 ≤ encodeSample v ∧ encodeSample v < 32768 ∧
      encodeSample v =
        jsTrunc (if clampSample v < 0 then clampSample v * 32768
                 else clampSample v * 32767) := by
  obtain ⟨h1, h2⟩ := jsTruncScaled_range v
  unfold encodeSample toInt16
  generalize jsTrunc (if clampSample v < 0 then clampSample v * 32768
    else clampSample v * 32767) = q at h1 h2 ⊢
  refine ⟨?_, ?_, ?_⟩ <;> split <;> omega

/-- Decoding an encoded packet recovers exactly the quantised samples:
the base64 and byte layers are lossless, so only the 16-bit quantisation
remains. -/
theorem decodeAudioData_createPcmBlob (x : List ℚ) (r : Nat) :
    decodeAudioData (createPcmBlob x r).data =
      x.map (fun s => ((encodeSample s : ℚ)) / 32768) := by
  unfold decodeAudioData createPcmBlob
  rw [atob_arrayBufferToBase64 _ (int16ListToBytes_lt _),
    bytesToInt16_int16ListToBytes _
      (fun v hv => by
        obtain ⟨s, _, rfl⟩ := List.mem_map.mp hv
        exact ⟨(encodeSample_range s).1, (encodeSample_range s).2.1⟩),
    List.map_map]
  rfl

/-- Per-sample quantisation error of the codec: for an in-range sample
the decoded value differs by strictly less than 2/32768 (and a negative
sample errs by less than 1/32768, but a positive one may err by more
than 1/32768 because of the asymmetric 32767 scale and the truncation
toward zero). -/
theorem encodeSample_close (s : ℚ) (h1 : -1 ≤ s) (h2 : s ≤ 1) :
    |((encodeSample s : ℚ)) / 32768 - s| < 1 / 16384 := by
  have hcl : clampSample s = s := clampSample_eq_of_mem s h1 h2
  have heq := (encodeSample_range s).2.2
  rw [hcl] at heq
  by_cases hneg : s < 0
  · rw [if_pos hneg] at heq
    have htr : jsTrunc (s * 32768) = ⌈s * 32768⌉ := by
      simp only [jsTrunc]
      rw [if_pos (by linarith)]
    rw [heq, htr]
    have hle : (s * 32768 : ℚ) ≤ (⌈s * 32768⌉ : ℚ) := Int.le_ceil _
    have hlt : ((⌈s * 32768⌉ : ℚ)) < s * 32768 + 1 := Int.ceil_lt_add_one _
    rw [abs_lt]
    constructor <;> [nlinarith; nlinarith]
  · rw [if_neg hneg] at heq
    push_neg at hneg
    have htr : jsTrunc (s * 32767) = ⌊s * 32767⌋ := by
      simp only [jsTrunc]
      rw [if_neg (by push_neg; positivity)]
    rw [heq, htr]
    have hle : ((⌊s * 32767⌋ : ℚ)) ≤ s * 32767 := Int.floor_le _
    have hlt : (s * 32767 : ℚ) < (⌊s * 32767⌋ : ℚ) + 1 := Int.lt_floor_add_one _
    rw [abs_lt]
    constructor <;> [nlinarith; nlinarith]

theorem forall₂_map_self {R : ℚ → ℚ → Prop} (f : ℚ → ℚ) :
    ∀ x : List ℚ, (∀ s ∈ x, R (f s) s) → List.Forall₂ R (x.map f) x
  | [], _ => List.Forall₂.nil
  | s :: rest, h =>
      List.Forall₂.cons (h s (by simp))
        (forall₂_map_self f rest (fun t ht => h t (by simp [ht])))

/-- C1 (amended): decoding the packet produced by encoding an array of
samples in the range -1 to 1 yields an array of the same length in which
every sample differs from the corresponding input sample by strictly
less than 1/16384 (that is, 2/32768; the tighter bound 1/32768 claimed
by the specification fails for positive samples, see the
counterexample). -/
theorem codec_roundtrip_within_quantization (x : List ℚ) (r : Nat)
    (h : ∀ s ∈ x, -1 ≤ s ∧ s ≤ 1) :
    (decodeAudioData (createPcmBlob x r).data).length = x.length ∧
    List.Forall₂ (fun d s => |d - s| < 1 / 16384)
      (decodeAudioData (createPcmBlob x r).data) x := by
  rw [decodeAudioData_createPcmBlob]
  exact ⟨by simp,
    forall₂_map_self _ x (fun s hs => encodeSample_close s (h s hs).1 (h s hs).2)⟩

/-- Witness for C1 at the concrete input [1/2, -1/2] with rate 16000. -/
theorem codec_roundtrip_within_quantization_witness :
    (∀ s ∈ [(1 : ℚ) / 2, -(1 / 2)], -1 ≤ s ∧ s ≤ 1) ∧
    ((decodeAudioData (createPcmBlob [(1 : ℚ) / 2, -(1 / 2)] 16000).data).length =
        [(1 : ℚ) / 2, -(1 / 2)].length ∧
      List.Forall₂ (fun d s => |d - s| < 1 / 16384)
        (decodeAudioData (createPcmBlob [(1 : ℚ) / 2, -(1 / 2)] 16000).data)
        [(1 : ℚ) / 2, -(1 / 2)]) :=
  ⟨by norm_num,
   codec_roundtrip_within_quantization [(1 : ℚ) / 2, -(1 / 2)] 16000 (by norm_num)⟩

/-- Counterexample to C1 as stated: the in-range sample 32773/131072
(an exactly representable 32-bit float near 0.25004) decodes to 1/4,
an error of 5/131072, which exceeds the claimed bound of
1/32768 = 4/131072. -/
theorem codec_roundtrip_bound_counterexample :
    (-1 ≤ (32773 / 131072 : ℚ) ∧ (32773 / 131072 : ℚ) ≤ 1) ∧
    decodeAudioData (createPcmBlob [(32773 / 131072 : ℚ)] 16000).data =
      [(1 / 4 : ℚ)] ∧
    1 / 32768 < |(1 / 4 : ℚ) - 32773 / 131072| := by
  refine ⟨by norm_num, ?_, ?_⟩
  · rw [decodeAudioData_createPcmBlob]
    have hc : clampSample (32773 / 131072 : ℚ) = 32773 / 131072 :=
      clampSample_eq_of_mem _ (by norm_num) (by norm_num)
    have hf : jsTrunc ((32773 / 131072 : ℚ) * 32767) = 8192 := by
      unfold jsTrunc
      rw [if_neg (by norm_num), Int.floor_eq_iff]
      constructor <;> norm_num
    have he : encodeSample (32773 / 131072 : ℚ) = 8192 := by
      unfold encodeSample
      rw [hc, if_neg (by norm_num : ¬((32773 / 131072 : ℚ) < 0)), hf]
      unfold toInt16
      rw [if_neg (by norm_num)]
      norm_num
    simp only [List.map_cons, List.map_nil, he]
    norm_num
  · rw [abs_sub_comm, abs_of_pos (by norm_num)]
    norm_num

/-- Clamp as the specification words it: the nearest point of the
interval from -1 to 1. -/
def clampSpec (v : ℚ) : ℚ := max (-1) (min 1 v)

theorem clampSample_clampSpec (v : ℚ) :
    clampSample (clampSpec v) = clampSample v := by
  simp only [clampSpec, clampSample, max_def, min_def]
  split_ifs <;> first | rfl | linarith

theorem encodeSample_clampSpec (v : ℚ) :
    encodeSample (clampSpec v) = encodeSample v := by
  unfold encodeSample
  rw [clampSample_clampSpec]

/-- C9 (confirmed): encoding equals encoding of the clamped input — every
sample is clamped to the range -1 to 1 before scaling; in particular an
input containing 1.5 and -2.0 encodes to the very packet produced with
those samples replaced by 1.0 and -1.0. -/
theorem createPcmBlob_clamps :
    (∀ (x : List ℚ) (r : Nat),
      createPcmBlob x r = createPcmBlob (x.map clampSpec) r) ∧
    createPcmBlob [(3 : ℚ) / 2, -2] 16000 = createPcmBlob [(1 : ℚ), -1] 16000 := by
  have hgen : ∀ (x : List ℚ) (r : Nat),
      createPcmBlob x r = createPcmBlob (x.map clampSpec) r := by
    intro x r
    unfold createPcmBlob
    rw [List.map_map]
    have hx : x.map encodeSample = x.map (encodeSample ∘ clampSpec) :=
      List.map_congr_left (fun s _ => (encodeSample_clampSpec s).symm)
    rw [hx]
  refine ⟨hgen, ?_⟩
  have hm : [(3 : ℚ) / 2, -2].map clampSpec = [(1 : ℚ), -1] := by
    simp only [List.map_cons, List.map_nil, clampSpec]
    norm_num
  calc createPcmBlob [(3 : ℚ) / 2, -2] 16000
      = createPcmBlob ([(3 : ℚ) / 2, -2].map clampSpec) 16000 := hgen _ _
    _ = createPcmBlob [(1 : ℚ), -1] 16000 := by rw [hm]

/-! ## Live session manager

Embeds the manager revision that keeps the resolved session in a
`session` field (`src/unnamed/part_001`), the revision the rest of the
tree — `src/services/audioUtils.ts` with its two-parameter
`createPcmBlob` and the `types` revision carrying the `answer` field —
composes with.  Handlers are modelled as functions from the manager
state to the ordered list of observable actions (callback notifications
and outbound sends) they perform during that one handling step. -/

/-- Observable actions of the manager: callback notifications to the
application and outbound protocol sends. -/
inductive Event where
  | volumeUpdate (value : ℚ)
  | transcriptUpdate (text : String)
  | intentDetected (text type answer : String)
  | errorNotified (message : String)
  | disconnected
  | pcmSent (blob : PcmBlob)
  | toolResponseSent (id name result : String)
  | sourceReleased
  | processorReleased
  | streamStopped
  | contextClosed
  deriving DecidableEq

def Event.isPcmSent : Event → Bool
  | .pcmSent _ => true
  | _ => false

def Event.isToolResponse : Event → Bool
  | .toolResponseSent _ _ _ => true
  | _ => false

def Event.isErrorNotified : Event → Bool
  | .errorNotified _ => true
  | _ => false

/-- Audio context handle: `sampleRate` is the actual (negotiated) rate
of the context, which the platform may choose differently from the rate
requested at construction. -/
structure AudioContextModel where
  sampleRate : Nat
  deriving DecidableEq

/-- The rate the manager requests when constructing the audio context
(`new AudioContext({sampleRate: 16000})` in `connect`). -/
def requestedSampleRate : Nat := 16000

/-- One function invocation of an inbound tool call
(`message.toolCall.functionCalls[i]`), with the three `report_intent`
arguments flattened. -/
structure FunctionCall where
  id : String
  name : String
  argText : String
  argType : String
  argAnswer : String
  deriving DecidableEq

/-- Inbound server message, flattened to the two fields the handler
reads: the optional chain `serverContent?.inputTranscription?.text`
(none when any link is absent) and `toolCall.functionCalls`. -/
structure LiveServerMessage where
  inputTranscriptionText : Option String
  toolCall : Option (List FunctionCall)
  deriving DecidableEq

/-- Mutable fields of the `LiveManager` class; handles owned through
the SDK or the platform are reduced to their presence. -/
structure LiveManagerState where
  session : Option Unit
  inputAudioContext : Option AudioContextModel
  stream : Option Unit
  processor : Option Unit
  source : Option Unit
  isConnected : Bool
  deriving DecidableEq

/-- Mean of the squared samples.  The source reports
`Math.sqrt(sum / inputData.length)` to the volume callback; the square
root of a rational is irrational in general, so the event carries the
squared loudness — no claim depends on the reported value. -/
def meanSquare (frame : List ℚ) : ℚ :=
  (frame.map (fun s => s * s)).sum / (frame.length : ℚ)

/-- The `onaudioprocess` closure installed by `handleOpen`: bail out if
the context is gone, report the volume, encode the frame with the
context's actual `sampleRate`, and send it only when the session handle
is present. -/
def onAudioProcess (st : LiveManagerState) (frame : List ℚ) : List Event :=
  match st.inputAudioContext with
  | none => []
  | some ctx =>
      Event.volumeUpdate (meanSquare frame) ::
      (if st.session.isSome then
        [Event.pcmSent (createPcmBlob frame ctx.sampleRate)]
       else [])

/-- Transcription block of `handleMessage`: forward the text iff the
optional chain produced a truthy (present and non-empty) string. -/
def transcriptionEvents (msg : LiveServerMessage) : List Event :=
  match msg.inputTranscriptionText with
  | some t => if t ≠ "" then [Event.transcriptUpdate t] else []
  | none => []

/-- Tool-call loop of `handleMessage`: for each invocation named
`report_intent`, notify the intent callback and, when the session handle
is present, synchronously send the acknowledgement correlated by the
invocation's call id. -/
def toolCallEvents (st : LiveManagerState) : List FunctionCall → List Event
  | [] => []
  | fc :: rest =>
      (if fc.name = "report_intent" then
        Event.intentDetected fc.argText fc.argType fc.argAnswer ::
          (if st.session.isSome then
            [Event.toolResponseSent fc.id fc.name "logged"]
           else [])
       else []) ++ toolCallEvents st rest

/-- Embedding of `handleMessage`: the ordered actions of one
message-handling step. -/
def handleMessage (st : LiveManagerState) (msg : LiveServerMessage) :
    List Event :=
  transcriptionEvents msg ++
    (match msg.toolCall with
     | some fcs => toolCallEvents st fcs
     | none => [])

/-- Embedding of `disconnect()`: clear every field, release each held
resource (each release guarded by its own null check), and
unconditionally fire the disconnect notification. -/
def disconnect (st : LiveManagerState) : LiveManagerState × List Event :=
  (⟨none, none, none, none, none, false⟩,
    (if st.source.isSome then [Event.sourceReleased] else []) ++
    (if st.processor.isSome then [Event.processorReleased] else []) ++
    (if st.stream.isSome then [Event.streamStopped] else []) ++
    (if st.inputAudioContext.isSome then [Event.contextClosed] else []) ++
    [Event.disconnected])

/-- Embedding of `handleClose`: the close callback funnels into
`disconnect()`. -/
def handleClose (st : LiveManagerState) : LiveManagerState × List Event :=
  disconnect st

/-- Message text of the error notification:
`(e as any).message || 'Connection error detected'` (absent or empty
falls back). -/
def errorText (message : Option String) : String :=
  match message with
  | some m => if m = "" then "Connection error detected" else m
  | none => "Connection error detected"

/-- Embedding of `handleError`: notify the error callback; the handler
touches no state and releases nothing. -/
def handleError (st : LiveManagerState) (message : Option String) :
    LiveManagerState × List Event :=
  (st, [Event.errorNotified (errorText message)])

/-- A fully open session whose context negotiated 48000 Hz although
16000 Hz was requested. -/
def ctx48k : AudioContextModel := ⟨48000⟩

/-- Manager state of an open session holding every resource. -/
def stOpen : LiveManagerState :=
  ⟨some (), some ctx48k, some (), some (), some (), true⟩

/-- Manager state before the transport handshake resolved: capture is
running but the session handle is still null. -/
def stPreOpen : LiveManagerState :=
  ⟨none, some ctx48k, some (), some (), some (), false⟩

theorem count_disconnected_guard (c : Prop) [Decidable c] (ev : Event)
    (hev : ev ≠ Event.disconnected) :
    List.count Event.disconnected (if c then [ev] else []) = 0 := by
  split
  · simp [List.count_cons, List.count_nil, beq_iff_eq, hev]
  · rfl

theorem count_disconnected_disconnect (st : LiveManagerState) :
    (disconnect st).2.count Event.disconnected = 1 := by
  unfold disconnect
  simp only [List.count_append]
  rw [count_disconnected_guard _ _ (by decide),
    count_disconnected_guard _ _ (by decide),
    count_disconnected_guard _ _ (by decide),
    count_disconnected_guard _ _ (by decide)]
  simp [List.count_cons]

/-- C2 (confirmed): every PCM packet sent by the per-frame closure is
tagged "audio/pcm;rate=N" where N is the actual sample rate of the
capture context at encoding time — the tag follows the context's
effective rate even when it differs from the requested 16000, as the
concrete effective rates 48000, 44100 and 24000 show. -/
theorem pcm_packets_tagged_with_actual_rate (st : LiveManagerState)
    (ctx : AudioContextModel) (frame : List ℚ)
    (hc : st.inputAudioContext = some ctx) (hs : st.session.isSome = true) :
    (onAudioProcess st frame).filter Event.isPcmSent =
      [Event.pcmSent (createPcmBlob frame ctx.sampleRate)] ∧
    (createPcmBlob frame ctx.sampleRate).mimeType =
      "audio/pcm;rate=" ++ toString ctx.sampleRate ∧
    ((createPcmBlob frame 48000).mimeType ≠
        "audio/pcm;rate=" ++ toString requestedSampleRate ∧
      (createPcmBlob frame 44100).mimeType ≠
        "audio/pcm;rate=" ++ toString requestedSampleRate ∧
      (createPcmBlob frame 24000).mimeType ≠
        "audio/pcm;rate=" ++ toString requestedSampleRate) := by
  refine ⟨?_, rfl, ?_, ?_, ?_⟩
  · simp [onAudioProcess, hc, hs, Event.isPcmSent, List.filter]
  · show "audio/pcm;rate=" ++ toString 48000 ≠
      "audio/pcm;rate=" ++ toString requestedSampleRate
    decide
  · show "audio/pcm;rate=" ++ toString 44100 ≠
      "audio/pcm;rate=" ++ toString requestedSampleRate
    decide
  · show "audio/pcm;rate=" ++ toString 24000 ≠
      "audio/pcm;rate=" ++ toString requestedSampleRate
    decide

/-- Witness for C2 on the open session whose context negotiated
48000 Hz. -/
theorem pcm_packets_tagged_with_actual_rate_witness :
    stOpen.inputAudioContext = some ctx48k ∧ stOpen.session.isSome = true ∧
    ((onAudioProcess stOpen [0]).filter Event.isPcmSent =
        [Event.pcmSent (createPcmBlob [0] ctx48k.sampleRate)] ∧
      (createPcmBlob [0] ctx48k.sampleRate).mimeType =
        "audio/pcm;rate=" ++ toString ctx48k.sampleRate ∧
      ((createPcmBlob [(0 : ℚ)] 48000).mimeType ≠
          "audio/pcm;rate=" ++ toString requestedSampleRate ∧
        (createPcmBlob [(0 : ℚ)] 44100).mimeType ≠
          "audio/pcm;rate=" ++ toString requestedSampleRate ∧
        (createPcmBlob [(0 : ℚ)] 24000).mimeType ≠
          "audio/pcm;rate=" ++ toString requestedSampleRate)) :=
  ⟨rfl, rfl, pcm_packets_tagged_with_actual_rate stOpen ctx48k [0] rfl rfl⟩

theorem filter_isToolResponse_transcription (msg : LiveServerMessage) :
    (transcriptionEvents msg).filter Event.isToolResponse = [] := by
  unfold transcriptionEvents
  cases htx : msg.inputTranscriptionText with
  | none => rfl
  | some t => split <;> simp [Event.isToolResponse, List.filter]

theorem filter_isToolResponse_toolCallEvents (st : LiveManagerState)
    (hs : st.session.isSome = true) :
    ∀ fcs : List FunctionCall,
      (toolCallEvents st fcs).filter Event.isToolResponse =
        (fcs.filter (fun fc => fc.name == "report_intent")).map
          (fun fc => Event.toolResponseSent fc.id fc.name "logged")
  | [] => rfl
  | fc :: rest => by
      have ih := filter_isToolResponse_toolCallEvents st hs rest
      unfold toolCallEvents
      rw [List.filter_append, ih, List.filter_cons]
      by_cases hn : fc.name = "report_intent"
      · rw [if_pos hn, if_pos hs, if_pos (by simp [hn])]
        simp [Event.isToolResponse, List.filter]
      · rw [if_neg hn, if_neg (by simp [hn])]
        simp

/-- C3 (confirmed): within one message-handling step, the handler sends
exactly one acknowledgement per invocation named report_intent, in
order, each correlated by that invocation's call id; the
acknowledgements belong to the returned action list of the very step, so
they are issued synchronously, before any later message is handled. -/
theorem tool_calls_acknowledged_synchronously (st : LiveManagerState)
    (msg : LiveServerMessage) (fcs : List FunctionCall)
    (hs : st.session.isSome = true) (htc : msg.toolCall = some fcs) :
    (handleMessage st msg).filter Event.isToolResponse =
      (fcs.filter (fun fc => fc.name == "report_intent")).map
        (fun fc => Event.toolResponseSent fc.id fc.name "logged") := by
  unfold handleMessage
  rw [List.filter_append, filter_isToolResponse_transcription]
  simp only [htc, List.nil_append]
  exact filter_isToolResponse_toolCallEvents st hs fcs

/-- Two inbound invocations used by concrete manager tests: a
report_intent call and an unrelated call. -/
def fcReport : FunctionCall :=
  ⟨"call-7", "report_intent", "what time is it", "QUESTION", "noon"⟩

def fcOther : FunctionCall :=
  ⟨"call-8", "other_tool", "", "", ""⟩

/-- Witness for C3 on a message carrying one report_intent invocation
and one unrelated invocation. -/
theorem tool_calls_acknowledged_synchronously_witness :
    stOpen.session.isSome = true ∧
    (LiveServerMessage.mk none (some [fcReport, fcOther])).toolCall =
      some [fcReport, fcOther] ∧
    (handleMessage stOpen
        (LiveServerMessage.mk none (some [fcReport, fcOther]))).filter
        Event.isToolResponse =
      (([fcReport, fcOther].filter
          (fun fc => fc.name == "report_intent"))).map
        (fun fc => Event.toolResponseSent fc.id fc.name "logged") :=
  ⟨rfl, rfl,
    tool_calls_acknowledged_synchronously stOpen
      (LiveServerMessage.mk none (some [fcReport, fcOther]))
      [fcReport, fcOther] rfl rfl⟩

theorem transcriptUpdate_not_mem_toolCallEvents (st : LiveManagerState)
    (s : String) :
    ∀ fcs : List FunctionCall,
      Event.transcriptUpdate s ∉ toolCallEvents st fcs
  | [] => by simp [toolCallEvents]
  | fc :: rest => by
      have ih := transcriptUpdate_not_mem_toolCallEvents st s rest
      unfold toolCallEvents
      intro h
      rcases List.mem_append.mp h with h1 | h1
      · by_cases hn : fc.name = "report_intent"
        · rw [if_pos hn] at h1
          rcases List.mem_cons.mp h1 with h2 | h2
          · exact Event.noConfusion h2
          · by_cases hss : st.session.isSome = true
            · rw [if_pos hss] at h2
              exact Event.noConfusion (List.mem_singleton.mp h2)
            · rw [if_neg hss] at h2
              exact List.not_mem_nil _ h2
        · rw [if_neg hn] at h1
          exact List.not_mem_nil _ h1
      · exact ih h1

/-- C10 (confirmed): a transcript-update notification is produced for an
inbound message iff the message's input-transcription text is present
and non-empty, and the forwarded text is exactly the carried text. -/
theorem transcript_forwarded_iff_nonempty (st : LiveManagerState)
    (msg : LiveServerMessage) :
    ∀ s : String, Event.transcriptUpdate s ∈ handleMessage st msg ↔
      msg.inputTranscriptionText = some s ∧ s ≠ "" := by
  intro s
  unfold handleMessage
  rw [List.mem_append]
  constructor
  · rintro (h | h)
    · unfold transcriptionEvents at h
      cases htx : msg.inputTranscriptionText with
      | none => simp only [htx] at h; exact absurd h (List.not_mem_nil _)
      | some t =>
          simp only [htx] at h
          by_cases ht : t ≠ ""
          · rw [if_pos ht] at h
            have h2 := List.mem_singleton.mp h
            have h3 : s = t := by
              injection h2
            subst h3
            exact ⟨rfl, ht⟩
          · rw [if_neg ht] at h
            exact absurd h (List.not_mem_nil _)
    · exfalso
      cases htc : msg.toolCall with
      | none => simp only [htc] at h; exact List.not_mem_nil _ h
      | some fcs =>
          simp only [htc] at h
          exact transcriptUpdate_not_mem_toolCallEvents st s fcs h
  · rintro ⟨htx, hne⟩
    left
    unfold transcriptionEvents
    simp only [htx]
    rw [if_pos hne]
    exact List.mem_singleton.mpr rfl

/-- C6 (confirmed): a frame delivered while the session handle is still
null produces no transmitted packet and no error notification; and the
packets sent by any later frame-processing step on an open session are
exactly the encoding of that later frame — a dropped frame is never
transmitted afterwards because no frame is ever buffered. -/
theorem preopen_frames_dropped (st : LiveManagerState) (frame : List ℚ)
    (h : st.session = none) :
    ((onAudioProcess st frame).filter Event.isPcmSent = [] ∧
      (onAudioProcess st frame).filter Event.isErrorNotified = []) ∧
    (∀ (st2 : LiveManagerState) (ctx2 : AudioContextModel) (f2 : List ℚ),
      st2.inputAudioContext = some ctx2 → st2.session.isSome = true →
      (onAudioProcess st2 f2).filter Event.isPcmSent =
        [Event.pcmSent (createPcmBlob f2 ctx2.sampleRate)]) := by
  constructor
  · cases hc : st.inputAudioContext with
    | none => constructor <;> simp [onAudioProcess, hc]
    | some ctx =>
        constructor <;>
          simp [onAudioProcess, hc, h, Event.isPcmSent,
            Event.isErrorNotified, List.filter]
  · intro st2 ctx2 f2 hc2 hs2
    simp [onAudioProcess, hc2, hs2, Event.isPcmSent, List.filter]

/-- Witness for C6 on the pre-open capture state. -/
theorem preopen_frames_dropped_witness :
    stPreOpen.session = none ∧
    (((onAudioProcess stPreOpen [0]).filter Event.isPcmSent = [] ∧
      (onAudioProcess stPreOpen [0]).filter Event.isErrorNotified = []) ∧
    (∀ (st2 : LiveManagerState) (ctx2 : AudioContextModel) (f2 : List ℚ),
      st2.inputAudioContext = some ctx2 → st2.session.isSome = true →
      (onAudioProcess st2 f2).filter Event.isPcmSent =
        [Event.pcmSent (createPcmBlob f2 ctx2.sampleRate)])) :=
  ⟨rfl, preopen_frames_dropped stPreOpen [0] rfl⟩

/-- C4 (amended): disconnect is idempotent on resources and errors —
the second of two consecutive calls releases nothing further and throws
nothing — but the disconnect notification fires once on every call, so
each call (user-initiated or via the close handler, which funnels into
the same path) produces exactly one notification, and two consecutive
calls produce two. -/
theorem disconnect_notification_per_call (st : LiveManagerState) :
    (disconnect st).2.count Event.disconnected = 1 ∧
    (disconnect (disconnect st).1).2 = [Event.disconnected] ∧
    (disconnect (disconnect st).1).1 = (disconnect st).1 ∧
    handleClose st = disconnect st :=
  ⟨count_disconnected_disconnect st, rfl, rfl, rfl⟩

/-- Counterexample to C4 as stated: two consecutive disconnect() calls
on an open manager emit two disconnect notifications, not one. -/
theorem disconnect_twice_two_notifications :
    ((disconnect stOpen).2 ++ (disconnect (disconnect stOpen).1).2).count
      Event.disconnected = 2 := by
  decide

/-- C7 (amended): a transport-level error produces exactly one error
notification and no teardown by itself — the handler leaves the state
(and thus every held resource) untouched and fires no disconnect
notification; the resources are released and the single disconnect
notification fired by the close handler, which runs the one disconnect
path. -/
theorem transport_error_notifies_only (st : LiveManagerState)
    (e : Option String) :
    (handleError st e).2 = [Event.errorNotified (errorText e)] ∧
    (handleError st e).1 = st ∧
    handleClose st = disconnect st ∧
    (disconnect st).1 = ⟨none, none, none, none, none, false⟩ ∧
    (disconnect st).2.count Event.disconnected = 1 :=
  ⟨rfl, rfl, rfl, rfl, count_disconnected_disconnect st⟩

/-- Counterexample to C7 as stated: on an open session a transport error
fires no disconnect notification and releases nothing — afterwards the
state is unchanged and the stream, context and session handles are all
still held. -/
theorem transport_error_no_teardown_counterexample :
    (handleError stOpen (some "boom")).2.count Event.disconnected = 0 ∧
    (handleError stOpen (some "boom")).1 = stOpen ∧
    stOpen.stream.isSome = true ∧ stOpen.inputAudioContext.isSome = true := by
  decide

/-! ## Application state projector — `src/App.tsx` -/

/-- Drop leading whitespace characters. -/
def trimLeftChars : List Char → List Char
  | [] => []
  | c :: rest => if c.isWhitespace then trimLeftChars rest else c :: rest

/-- The `prev.trim()` of the turn-boundary test: remove leading and
trailing whitespace.  (Spelled structurally over the character list so
that it evaluates; it agrees with the JavaScript trim on the
whitespace the transcripts contain.) -/
def jsTrim (s : String) : String :=
  String.mk ((trimLeftChars (trimLeftChars s.data).reverse).reverse)

/-- Transcript state of the application: completed turns plus the
cumulative text of the current turn. -/
structure TranscriptState where
  transcriptHistory : List String
  currentTranscript : String
  deriving DecidableEq

/-- Initial state: `useState<string[]>([])` and `useState('')`. -/
def initialTranscriptState : TranscriptState := ⟨[], ""⟩

/-- Embedding of the `onTranscriptUpdate` handler of `src/App.tsx`: if
the new text is strictly shorter than the current cumulative text and
the current text is non-blank (`prev.trim().length > 0`), push the
current text to history and replace it; otherwise just replace it. -/
def onTranscriptUpdate (st : TranscriptState) (text : String) :
    TranscriptState :=
  if text.length < st.currentTranscript.length ∧
      0 < (jsTrim st.currentTranscript).length then
    ⟨st.transcriptHistory ++ [st.currentTranscript], text⟩
  else
    ⟨st.transcriptHistory, text⟩

/-- A whole sequence of cumulative transcript updates. -/
def runTranscript (st : TranscriptState) (updates : List String) :
    TranscriptState :=
  updates.foldl onTranscriptUpdate st

/-- C5 (amended): an update starts a new turn iff it is strictly shorter
than the current cumulative text and the current text is non-blank —
contains a non-whitespace character — (not merely non-empty as claimed),
in which case the old cumulative text is appended to history before
being replaced; the update always becomes the current text.  The two
quoted runs behave as claimed. -/
theorem transcript_turn_boundary :
    (∀ (st : TranscriptState) (t : String),
      (onTranscriptUpdate st t).currentTranscript = t ∧
      (onTranscriptUpdate st t).transcriptHistory =
        (if t.length < st.currentTranscript.length ∧
            0 < (jsTrim st.currentTranscript).length
         then st.transcriptHistory ++ [st.currentTranscript]
         else st.transcriptHistory)) ∧
    runTranscript initialTranscriptState ["hi", "hi there", "go"] =
      ⟨["hi there"], "go"⟩ ∧
    runTranscript initialTranscriptState ["", "hello"] = ⟨[], "hello"⟩ := by
  refine ⟨?_, by decide, by decide⟩
  intro st t
  unfold onTranscriptUpdate
  split <;> simp_all

/-- Counterexample to C5 as stated: after the updates [" ", ""] the
update "" is strictly shorter than the current text " ", which is
non-empty, yet no turn is pushed — history stays empty because the
source tests `prev.trim().length > 0`, not non-emptiness. -/
theorem transcript_blank_current_counterexample :
    (String.length "" < String.length " " ∧ (" " : String) ≠ "") ∧
    runTranscript initialTranscriptState [" ", ""] = ⟨[], ""⟩ := by
  decide

/-- Payload of one detected intent, the argument record the manager
passes to the intent callback. -/
structure IntentData where
  text : String
  type : String
  answer : String
  deriving DecidableEq

/-- A stored intent entry (`DetectedIntent` of the `types` revision with
the `answer` field, which the manager always supplies). -/
structure DetectedIntent where
  id : String
  text : String
  type : String
  timestamp : Nat
  answer : String
  deriving DecidableEq

/-- Embedding of the `onIntentDetected` handler of `src/App.tsx`: build
the record with a fresh id and the current time and append it —
`setIntents(prev => [...prev, newIntent])`. -/
def onIntentDetected (newId : String) (now : Nat)
    (intents : List DetectedIntent) (d : IntentData) : List DetectedIntent :=
  intents ++ [⟨newId, d.text, d.type, now, d.answer⟩]

/-- A run of intent events.  The fresh ids (`crypto.randomUUID()`) and
timestamps (`Date.now()`) are modelled as supplies indexed by the number
of intents generated so far. -/
def runIntents (ids : Nat → String) (ts : Nat → Nat) :
    Nat → List DetectedIntent → List IntentData → List DetectedIntent
  | _, intents, [] => intents
  | k, intents, d :: rest =>
      runIntents ids ts (k + 1) (onIntentDetected (ids k) (ts k) intents d) rest

theorem runIntents_acc (ids : Nat → String) (ts : Nat → Nat) :
    ∀ (ds : List IntentData) (k : Nat) (intents : List DetectedIntent),
      runIntents ids ts k intents ds = intents ++ runIntents ids ts k [] ds
  | [], _, intents => by simp [runIntents]
  | d :: rest, k, intents => by
      show runIntents ids ts (k + 1) (onIntentDetected (ids k) (ts k) intents d)
          rest = _
      rw [runIntents_acc ids ts rest (k + 1) (onIntentDetected (ids k) (ts k) intents d)]
      have h2 : runIntents ids ts k [] (d :: rest) =
          onIntentDetected (ids k) (ts k) [] d ++ runIntents ids ts (k + 1) [] rest := by
        show runIntents ids ts (k + 1) (onIntentDetected (ids k) (ts k) [] d) rest = _
        rw [runIntents_acc ids ts rest (k + 1) (onIntentDetected (ids k) (ts k) [] d)]
      rw [h2]
      simp [onIntentDetected]

theorem runIntents_append (ids : Nat → String) (ts : Nat → Nat) :
    ∀ (ds1 : List IntentData) (k : Nat) (ds2 : List IntentData),
      runIntents ids ts k [] (ds1 ++ ds2) =
        runIntents ids ts k [] ds1 ++ runIntents ids ts (k + ds1.length) [] ds2
  | [], k, ds2 => by simp [runIntents]
  | d :: rest, k, ds2 => by
      have hstep : ∀ ds' : List IntentData,
          runIntents ids ts k [] (d :: ds') =
            onIntentDetected (ids k) (ts k) [] d ++
              runIntents ids ts (k + 1) [] ds' := by
        intro ds'
        show runIntents ids ts (k + 1) (onIntentDetected (ids k) (ts k) [] d)
            ds' = _
        rw [runIntents_acc ids ts ds' (k + 1)
          (onIntentDetected (ids k) (ts k) [] d)]
      rw [List.cons_append, hstep (rest ++ ds2), hstep rest,
        runIntents_append ids ts rest (k + 1) ds2]
      simp only [List.append_assoc, List.length_cons]
      have hk : k + 1 + rest.length = k + (rest.length + 1) := by omega
      rw [hk]

theorem runIntents_map_payload (ids : Nat → String) (ts : Nat → Nat) :
    ∀ (ds : List IntentData) (k : Nat),
      (runIntents ids ts k [] ds).map (fun it => (it.text, it.type, it.answer)) =
        ds.map (fun d => (d.text, d.type, d.answer))
  | [], _ => rfl
  | d :: rest, k => by
      show ((runIntents ids ts (k + 1) (onIntentDetected (ids k) (ts k) [] d)
          rest).map fun it => (it.text, it.type, it.answer)) = _
      rw [runIntents_acc]
      simp only [onIntentDetected, List.nil_append, List.map_cons, List.map_append,
        List.map_cons, List.map_nil, List.cons_append, List.nil_append]
      rw [runIntents_map_payload ids ts rest (k + 1)]

theorem runIntents_map_id (ids : Nat → String) (ts : Nat → Nat) :
    ∀ (ds : List IntentData) (k : Nat),
      (runIntents ids ts k [] ds).map DetectedIntent.id =
        (List.range' k ds.length).map ids
  | [], _ => rfl
  | d :: rest, k => by
      show ((runIntents ids ts (k + 1) (onIntentDetected (ids k) (ts k) [] d)
          rest).map DetectedIntent.id) = _
      rw [runIntents_acc]
      simp only [onIntentDetected, List.nil_append, List.map_cons, List.map_append,
        List.map_nil, List.cons_append, List.nil_append, List.length_cons,
        List.range'_succ, List.map_cons]
      rw [runIntents_map_id ids ts rest (k + 1)]

/-- C8 (confirmed): a run of intent events produces the corresponding
intent records in exactly the arrival order; processing further events
only appends to the already-produced list (entries are never mutated,
removed or reordered); and — as long as the fresh-id supply never
repeats, which models `crypto.randomUUID()` — all assigned ids are
distinct. -/
theorem intent_list_ordered_append_only (ids : Nat → String) (ts : Nat → Nat)
    (hinj : Function.Injective ids) (ds : List IntentData) :
    (runIntents ids ts 0 [] ds).map (fun it => (it.text, it.type, it.answer)) =
      ds.map (fun d => (d.text, d.type, d.answer)) ∧
    (∀ ds2 : List IntentData, runIntents ids ts 0 [] (ds ++ ds2) =
      runIntents ids ts 0 [] ds ++ runIntents ids ts ds.length [] ds2) ∧
    ((runIntents ids ts 0 [] ds).map DetectedIntent.id).Nodup := by
  refine ⟨runIntents_map_payload ids ts ds 0, ?_, ?_⟩
  · intro ds2
    have := runIntents_append ids ts ds 0 ds2
    simpa using this
  · rw [runIntents_map_id ids ts ds 0]
    exact List.Nodup.map hinj (List.nodup_range' _ _)

/-- Fresh-id supply for the C8 witness: distinct strings of distinct
lengths. -/
def witnessIds (n : Nat) : String := String.mk (List.replicate n 'a')

theorem witnessIds_injective : Function.Injective witnessIds := by
  intro a b h
  have hlen := congrArg (fun s : String => s.data.length) h
  simpa [witnessIds] using hlen

/-- Witness for C8 on two concrete intent events. -/
theorem intent_list_ordered_append_only_witness :
    Function.Injective witnessIds ∧
    ((runIntents witnessIds (fun n => n) 0 []
        [⟨"q", "QUESTION", "a1"⟩, ⟨"c", "IMPERATIVE", "a2"⟩]).map
        (fun it => (it.text, it.type, it.answer)) =
      [⟨"q", "QUESTION", "a1"⟩, ⟨"c", "IMPERATIVE", "a2"⟩].map
        (fun d : IntentData => (d.text, d.type, d.answer)) ∧
    (∀ ds2 : List IntentData,
      runIntents witnessIds (fun n => n) 0 []
          ([⟨"q", "QUESTION", "a1"⟩, ⟨"c", "IMPERATIVE", "a2"⟩] ++ ds2) =
        runIntents witnessIds (fun n => n) 0 []
          [⟨"q", "QUESTION", "a1"⟩, ⟨"c", "IMPERATIVE", "a2"⟩] ++
        runIntents witnessIds (fun n => n)
          ([(⟨"q", "QUESTION", "a1"⟩ : IntentData),
            ⟨"c", "IMPERATIVE", "a2"⟩].length) [] ds2) ∧
    ((runIntents witnessIds (fun n => n) 0 []
        [⟨"q", "QUESTION", "a1"⟩, ⟨"c", "IMPERATIVE", "a2"⟩]).map
        DetectedIntent.id).Nodup) :=
  ⟨witnessIds_injective,
    intent_list_ordered_append_only witnessIds (fun n => n) witnessIds_injective
      [⟨"q", "QUESTION", "a1"⟩, ⟨"c", "IMPERATIVE", "a2"⟩]⟩

end VoiceMonitor
